import Mathlib

set_option maxHeartbeats 1000000

/- Shallow embedding of the similarity-index core of the face-lock repository.
   Sources embedded here:
   - src/lib/entityDb.ts   (binarizeEmbedding, popcount64BigInt, hammingDistancePacked,
                            createEntityDb with upsert/remove/clear/all/get,
                            queryBinary, queryBinarySIMD, loadHammingSimdWasm)
   - src/lib/vectorUtils.ts (cosineSimilarity, findBestFaceMatch)
   - src/app/api/clockin/route.ts (the match decision on a best candidate and the
                            clock-in / clock-out next-action computation)
   JS BigUint64Array words are modelled as Nat values; all words produced by the
   code are < 2^64 and the bitwise operations used (xor, and, or, shift) agree
   with the JS BigInt semantics on such values. -/

namespace FaceLock

/- Record type of src/lib/entityDb.ts: `{ id, vector, metadata? }`.
   The packed binary vector (BigUint64Array) is a list of 64-bit words. -/

structure EntityRecord (M : Type) where
  id : String
  vector : List Nat
  metadata : Option M
deriving DecidableEq

/- QueryResult extends EntityRecord with the Hamming distance, as in the source
   (`results.push({ ...rec, distance })`). -/

structure QueryResult (M : Type) extends EntityRecord M where
  distance : Nat
deriving DecidableEq

/- Error thrown by hammingDistancePacked:
   `Vector length mismatch: ${a.length} vs ${b.length}` -/

inductive DbError where
  | lengthMismatch (la lb : Nat)
deriving DecidableEq

/- popcount64BigInt from src/lib/entityDb.ts lines 57-64: repeatedly clears the
   lowest set bit (`x &= x - 1n`) counting iterations. -/

def popcount64BigInt (x : Nat) : Nat :=
  if h : x = 0 then 0
  else 1 + popcount64BigInt (x &&& (x - 1))
termination_by x
decreasing_by
  exact Nat.lt_of_le_of_lt Nat.and_le_right (Nat.sub_lt (Nat.pos_of_ne_zero h) Nat.one_pos)

/- Specification-side population count: count of set bits read off the binary
   expansion, independent of the clear-lowest-bit loop. -/

def specPopc (x : Nat) : Nat :=
  if h : x = 0 then 0
  else specPopc (x / 2) + x % 2
termination_by x
decreasing_by
  exact Nat.div_lt_self (Nat.pos_of_ne_zero h) Nat.one_lt_two

theorem specPopc_zero : specPopc 0 = 0 := by
  rw [specPopc]
  simp

theorem specPopc_pos {x : Nat} (h : x ≠ 0) : specPopc x = specPopc (x / 2) + x % 2 := by
  rw [specPopc]
  simp [h]

theorem popcount64BigInt_zero : popcount64BigInt 0 = 0 := by
  rw [popcount64BigInt]
  simp

theorem popcount64BigInt_pos {x : Nat} (h : x ≠ 0) :
    popcount64BigInt x = 1 + popcount64BigInt (x &&& (x - 1)) := by
  rw [popcount64BigInt]
  simp [h]

theorem specPopc_two_mul (q : Nat) : specPopc (2 * q) = specPopc q := by
  rcases Nat.eq_zero_or_pos q with rfl | hq
  · simp
  · have h : 2 * q ≠ 0 := by omega
    rw [specPopc_pos h]
    have h2 : 2 * q / 2 = q := by omega
    have h3 : 2 * q % 2 = 0 := by omega
    rw [h2, h3]
    omega

theorem specPopc_two_mul_add_one (q : Nat) : specPopc (2 * q + 1) = specPopc q + 1 := by
  have h : 2 * q + 1 ≠ 0 := by omega
  rw [specPopc_pos h]
  have h2 : (2 * q + 1) / 2 = q := by omega
  have h3 : (2 * q + 1) % 2 = 1 := by omega
  rw [h2, h3]

theorem and_pred_odd (q : Nat) : (2 * q + 1) &&& (2 * q) = 2 * q := by
  apply Nat.eq_of_testBit_eq
  intro i
  cases i with
  | zero =>
    have h1 : (2 * q + 1) % 2 = 1 := by omega
    have h2 : (2 * q) % 2 = 0 := by omega
    simp [Nat.testBit_and, Nat.testBit_zero, h1, h2]
  | succ i =>
    have h1 : (2 * q + 1) / 2 = q := by omega
    have h2 : (2 * q) / 2 = q := by omega
    rw [Nat.testBit_and]
    simp [Nat.testBit_succ, h1, h2]

theorem and_pred_even (q : Nat) (hq : q ≠ 0) :
    (2 * q) &&& (2 * q - 1) = 2 * (q &&& (q - 1)) := by
  apply Nat.eq_of_testBit_eq
  intro i
  cases i with
  | zero =>
    have h1 : (2 * q) % 2 = 0 := by omega
    have h2 : (2 * (q &&& (q - 1))) % 2 = 0 := by omega
    simp [Nat.testBit_and, Nat.testBit_zero, h1, h2]
  | succ i =>
    have h1 : (2 * q) / 2 = q := by omega
    have h2 : (2 * q - 1) / 2 = q - 1 := by omega
    have h3 : (2 * (q &&& (q - 1))) / 2 = q &&& (q - 1) := by omega
    rw [Nat.testBit_and]
    simp [Nat.testBit_succ, h1, h2, h3, Nat.testBit_and]

theorem popcount64BigInt_two_mul (q : Nat) : popcount64BigInt (2 * q) = popcount64BigInt q := by
  induction q using Nat.strong_induction_on with
  | _ q ih =>
    rcases Nat.eq_zero_or_pos q with rfl | hq
    · simp
    · have hq0 : q ≠ 0 := by omega
      have h2q : 2 * q ≠ 0 := by omega
      have hlt : q &&& (q - 1) < q :=
        Nat.lt_of_le_of_lt Nat.and_le_right (Nat.sub_lt hq Nat.one_pos)
      rw [popcount64BigInt_pos h2q, and_pred_even q hq0, ih (q &&& (q - 1)) hlt,
        ← popcount64BigInt_pos hq0]

theorem popcount64BigInt_eq_specPopc (x : Nat) : popcount64BigInt x = specPopc x := by
  induction x using Nat.strong_induction_on with
  | _ x ih =>
    rcases Nat.even_or_odd x with ⟨k, hk⟩ | ⟨k, hk⟩
    · subst hk
      rcases Nat.eq_zero_or_pos k with rfl | hkpos
      · simp [popcount64BigInt_zero, specPopc_zero]
      · have hx : k + k = 2 * k := by omega
        rw [hx, popcount64BigInt_two_mul, specPopc_two_mul]
        exact ih k (by omega)
    · subst hk
      have hx0 : 2 * k + 1 ≠ 0 := by omega
      have hsub : 2 * k + 1 - 1 = 2 * k := by omega
      rw [popcount64BigInt_pos hx0, hsub, and_pred_odd, popcount64BigInt_two_mul,
        specPopc_two_mul_add_one, ih k (by omega)]
      omega

/- hammingDistancePacked from src/lib/entityDb.ts lines 66-76: throws on length
   mismatch, otherwise sums the popcount of the wordwise xor. -/

def hammingDistancePacked (a b : List Nat) : Except DbError Nat :=
  if a.length ≠ b.length then Except.error (DbError.lengthMismatch a.length b.length)
  else Except.ok (List.sum (List.zipWith (fun x y => popcount64BigInt (x ^^^ y)) a b))

/- Specification-side Hamming distance: popcount of the wordwise xor, using the
   binary-expansion popcount. -/

def specHamming (a b : List Nat) : Nat :=
  List.sum (List.zipWith (fun x y => specPopc (x ^^^ y)) a b)

theorem hammingDistancePacked_ok {a b : List Nat} (h : a.length = b.length) :
    hammingDistancePacked a b = Except.ok (specHamming a b) := by
  simp [hammingDistancePacked, h, specHamming, popcount64BigInt_eq_specPopc]

theorem hammingDistancePacked_error {a b : List Nat} (h : a.length ≠ b.length) :
    hammingDistancePacked a b = Except.error (DbError.lengthMismatch a.length b.length) := by
  simp [hammingDistancePacked, h]

/- Store operations of createEntityDb (src/lib/entityDb.ts lines 112-135).
   The JS Map is modelled as an insertion-ordered association list:
   `Map.set` replaces the value in place when the key is present and appends
   otherwise; `Map.delete` removes the key; `Array.from(records.values())`
   yields the records in insertion order. -/

def upsert {M : Type} (db : List (EntityRecord M)) (rec : EntityRecord M) :
    List (EntityRecord M) :=
  if db.any (fun r => decide (r.id = rec.id)) then
    db.map (fun r => if r.id = rec.id then rec else r)
  else db ++ [rec]

def remove {M : Type} (db : List (EntityRecord M)) (id : String) : List (EntityRecord M) :=
  db.filter (fun r => decide (r.id ≠ id))

def clear {M : Type} (db : List (EntityRecord M)) : List (EntityRecord M) := []

def all {M : Type} (db : List (EntityRecord M)) : List (EntityRecord M) := db

def get {M : Type} (db : List (EntityRecord M)) (id : String) : Option (EntityRecord M) :=
  db.find? (fun r => decide (r.id = id))

/- Distance computation loop of queryBinary (src/lib/entityDb.ts lines 141-145):
   one QueryResult per stored record, in store iteration order; the first
   length-mismatch throw aborts the whole query. -/

def queryResults {M : Type} (db : List (EntityRecord M)) (q : List Nat) :
    Except DbError (List (QueryResult M)) :=
  match db with
  | [] => Except.ok []
  | rec :: rest =>
    match hammingDistancePacked q rec.vector with
    | Except.error e => Except.error e
    | Except.ok d =>
      match queryResults rest q with
      | Except.error e => Except.error e
      | Except.ok rs => Except.ok (⟨rec, d⟩ :: rs)

/- Comparator of `results.sort((a, b) => a.distance - b.distance)`: sort
   ascending by distance; the ECMAScript sort is stable, as is mergeSort. -/

def distLe {M : Type} (a b : QueryResult M) : Bool := decide (a.distance ≤ b.distance)

/- queryBinary from src/lib/entityDb.ts lines 137-148: compute all distances,
   sort by distance (stable), return the first topK. -/

def queryBinary {M : Type} (db : List (EntityRecord M)) (q : List Nat) (topK : Nat) :
    Except DbError (List (QueryResult M)) :=
  match queryResults db q with
  | Except.error e => Except.error e
  | Except.ok results => Except.ok ((results.mergeSort distLe).take topK)

/- Outcome of the `fetch` of /wasm/hamming_distance_simd.wasm inside
   loadHammingSimdWasm (src/lib/entityDb.ts lines 89-109): the fetch may throw
   (any exception is caught), respond non-ok, or deliver a kernel. The loaded
   kernel is abstracted as a distance function on packed word lists. -/

inductive FetchOutcome where
  | fetchThrew
  | fetchNotOk
  | fetchOk (kernel : List Nat → List Nat → Nat)

/- loadHammingSimdWasm: returns null on a non-ok response and catches every
   exception, returning null; otherwise returns the instantiated exports. -/

def loadHammingSimdWasm : FetchOutcome → Option (List Nat → List Nat → Nat)
  | FetchOutcome.fetchThrew => none
  | FetchOutcome.fetchNotOk => none
  | FetchOutcome.fetchOk kernel => some kernel

/- queryBinarySIMD from src/lib/entityDb.ts lines 150-200: with no kernel it
   falls back to queryBinary; with a kernel it computes every distance through
   the kernel, then sorts and truncates exactly as queryBinary does. -/

def queryBinarySIMD {M : Type} (wasmExports : Option (List Nat → List Nat → Nat))
    (db : List (EntityRecord M)) (q : List Nat) (topK : Nat) :
    Except DbError (List (QueryResult M)) :=
  match wasmExports with
  | none => queryBinary db q topK
  | some kernel =>
    Except.ok (((db.map (fun rec => ⟨rec, kernel q rec.vector⟩)).mergeSort distLe).take topK)

/- Operation traces against one store instance, for stating the lifecycle
   invariant of all()/upsert/remove/clear. -/

inductive DbOp (M : Type) where
  | upsertOp (rec : EntityRecord M)
  | removeOp (id : String)
  | clearOp

def applyOp {M : Type} (db : List (EntityRecord M)) : DbOp M → List (EntityRecord M)
  | DbOp.upsertOp rec => upsert db rec
  | DbOp.removeOp id => remove db id
  | DbOp.clearOp => clear db

def runOps {M : Type} (ops : List (DbOp M)) : List (EntityRecord M) :=
  ops.foldl applyOp []

/- Specification-side id bookkeeping: the set of ids passed to upsert minus
   those subsequently passed to remove or erased by clear. -/

def stepIds {M : Type} (s : Finset String) : DbOp M → Finset String
  | DbOp.upsertOp rec => insert rec.id s
  | DbOp.removeOp id => s.erase id
  | DbOp.clearOp => ∅

def specIds {M : Type} (ops : List (DbOp M)) : Finset String :=
  ops.foldl stepIds ∅

/- binarizeEmbedding from src/lib/entityDb.ts lines 26-51, written as a
   recursion over the value list carrying the loop state (bitIndexInWord,
   currentWord). A word is flushed when bitIndexInWord reaches 64 or at the
   last element; with a non-empty input that emits exactly ceil(n/64) words,
   matching the preallocated BigUint64Array. Embedding values only get compared
   against the threshold, so they are modelled as rationals. -/

def binarizeGo (threshold : ℚ) : List ℚ → Nat → Nat → List Nat
  | [], _, _ => []
  | [x], bitIdx, cur => [if x > threshold then cur ||| (1 <<< bitIdx) else cur]
  | x :: y :: rest, bitIdx, cur =>
    if bitIdx + 1 = 64 then
      (if x > threshold then cur ||| (1 <<< bitIdx) else cur) :: binarizeGo threshold (y :: rest) 0 0
    else
      binarizeGo threshold (y :: rest) (bitIdx + 1) (if x > threshold then cur ||| (1 <<< bitIdx) else cur)

def binarizeEmbedding (embedding : List ℚ) (threshold : ℚ) : List Nat :=
  binarizeGo threshold embedding 0 0

/- faceEmbeddingToBinary from src/lib/entityDb.ts lines 206-208. -/

def faceEmbeddingToBinary (embedding : List ℚ) : List Nat :=
  binarizeEmbedding embedding 0

/- Specification-side packing: packFrom t l b is the word whose bits b, b+1, ...
   mirror the comparisons of l's elements against t (little-endian). -/

def packFrom (threshold : ℚ) : List ℚ → Nat → Nat
  | [], _ => 0
  | x :: xs, b => (if x > threshold then 1 <<< b else 0) ||| packFrom threshold xs (b + 1)

/- Candidate record consumed by findBestFaceMatch
   (src/lib/vectorUtils.ts lines 100-127). -/

structure FaceCandidate where
  id : String
  embedding : List ℝ
  name : Option String

/- Best-match object built by findBestFaceMatch; the source field `match` is a
   Lean keyword and is called matchFlag here. -/

structure FaceBestMatch where
  id : String
  name : Option String
  similarity : ℝ
  matchFlag : Bool

/- Error thrown by cosineSimilarity when the two vectors differ in length. -/

inductive VecError where
  | vecLengthMismatch
deriving DecidableEq

/- cosineSimilarity from src/lib/vectorUtils.ts lines 11-34: dot product over
   the product of the Euclidean norms, 0 when either norm is 0, and a thrown
   error on length mismatch. Float arithmetic is idealised as real arithmetic. -/

noncomputable def cosineSimilarity (a b : List ℝ) : Except VecError ℝ :=
  if a.length ≠ b.length then Except.error VecError.vecLengthMismatch
  else
    let dotProduct := (List.zipWith (fun x y => x * y) a b).sum
    let normA := Real.sqrt ((a.map (fun x => x * x)).sum)
    let normB := Real.sqrt ((b.map (fun x => x * x)).sum)
    if normA = 0 ∨ normB = 0 then Except.ok 0
    else Except.ok (dotProduct / (normA * normB))

/- Loop of findBestFaceMatch (src/lib/vectorUtils.ts lines 109-126): bestMatch
   starts at null, bestSimilarity starts at 0, and both are updated only on a
   strict improvement; a cosineSimilarity throw propagates. -/

noncomputable def findBestLoop (queryEmbedding : List ℝ) (threshold : ℝ) :
    List FaceCandidate → Option FaceBestMatch → ℝ → Except VecError (Option FaceBestMatch)
  | [], bestMatch, _ => Except.ok bestMatch
  | candidate :: rest, bestMatch, bestSimilarity =>
    match cosineSimilarity queryEmbedding candidate.embedding with
    | Except.error e => Except.error e
    | Except.ok similarity =>
      if similarity > bestSimilarity then
        findBestLoop queryEmbedding threshold rest
          (some ⟨candidate.id, candidate.name, similarity, decide (similarity ≥ threshold)⟩)
          similarity
      else
        findBestLoop queryEmbedding threshold rest bestMatch bestSimilarity

/- findBestFaceMatch from src/lib/vectorUtils.ts lines 100-127: null for an
   empty candidate list, otherwise the loop from null / 0. -/

noncomputable def findBestFaceMatch (queryEmbedding : List ℝ) (candidates : List FaceCandidate)
    (threshold : ℝ) : Except VecError (Option FaceBestMatch) :=
  if candidates.length = 0 then Except.ok none
  else findBestLoop queryEmbedding threshold candidates none 0

/- Match decision of the clockin route (src/app/api/clockin/route.ts lines
   153-166): `if (!bestMatch || !bestMatch.match)` reports no match, so the
   caller reports a match exactly when a best match exists and its flag is set. -/

def clockinMatched : Option FaceBestMatch → Bool
  | none => false
  | some b => b.matchFlag

/- Attendance status strings written to the ledger by the clockin route. -/

inductive AttendanceStatus where
  | CLOCK_IN
  | CLOCK_OUT
deriving DecidableEq

/- Next-action computation of the clockin route (src/app/api/clockin/route.ts
   lines 84 and 174):
   `lastLog?.status === "CLOCK_IN" ? "CLOCK_OUT" : "CLOCK_IN"`. -/

def nextAction : Option AttendanceStatus → AttendanceStatus
  | some AttendanceStatus.CLOCK_IN => AttendanceStatus.CLOCK_OUT
  | _ => AttendanceStatus.CLOCK_IN

theorem queryResults_ok {M : Type} {db : List (EntityRecord M)} {q : List Nat}
    (h : ∀ rec ∈ db, rec.vector.length = q.length) :
    queryResults db q =
      Except.ok (db.map (fun rec => ⟨rec, specHamming q rec.vector⟩)) := by
  induction db with
  | nil => rfl
  | cons rec rest ih =>
    have hrec : q.length = rec.vector.length := (h rec (by simp)).symm
    rw [queryResults, hammingDistancePacked_ok hrec,
      ih (fun r hr => h r (by simp [hr]))]
    simp

theorem queryResults_error {M : Type} {db : List (EntityRecord M)} {q : List Nat}
    (h : ∃ rec ∈ db, rec.vector.length ≠ q.length) :
    ∃ l, queryResults db q = Except.error (DbError.lengthMismatch q.length l) ∧
      l ≠ q.length := by
  induction db with
  | nil => simp at h
  | cons rec rest ih =>
    by_cases hrec : rec.vector.length = q.length
    · have hrest : ∃ r ∈ rest, r.vector.length ≠ q.length := by
        rcases h with ⟨r, hr, hne⟩
        rcases List.mem_cons.mp hr with rfl | hr2
        · exact absurd hrec hne
        · exact ⟨r, hr2, hne⟩
      rcases ih hrest with ⟨l, hl, hlne⟩
      refine ⟨l, ?_, hlne⟩
      rw [queryResults, hammingDistancePacked_ok hrec.symm, hl]
    · refine ⟨rec.vector.length, ?_, hrec⟩
      have hq : q.length ≠ rec.vector.length := fun hh => hrec hh.symm
      rw [queryResults, hammingDistancePacked_error hq]

theorem distLe_trans {M : Type} (a b c : QueryResult M) :
    distLe a b = true → distLe b c = true → distLe a c = true := by
  simp [distLe]
  omega

theorem distLe_total {M : Type} (a b : QueryResult M) :
    (distLe a b || distLe b a) = true := by
  simp [distLe]
  omega

/-- Claim C2: when the accelerated kernel fails to load or is absent (the fetch
threw, or the response was not ok, hence loadHammingSimdWasm returned null),
queryBinarySIMD returns exactly the same result sequence as the scalar
queryBinary on the same store contents, and the load failure never surfaces as
an error to the caller: the only possible failure is queryBinary's own. -/
theorem queryBinarySIMD_fallback {M : Type} (outcome : FetchOutcome)
    (db : List (EntityRecord M)) (q : List Nat) (k : Nat)
    (h : loadHammingSimdWasm outcome = none) :
    queryBinarySIMD (loadHammingSimdWasm outcome) db q k = queryBinary db q k := by
  rw [h]
  rfl

theorem queryBinarySIMD_fallback_witness :
    loadHammingSimdWasm FetchOutcome.fetchThrew = none ∧
    queryBinarySIMD (loadHammingSimdWasm FetchOutcome.fetchThrew)
        ([⟨"a", [3], none⟩] : List (EntityRecord Unit)) [0] 5 =
      queryBinary [⟨"a", [3], none⟩] [0] 5 :=
  ⟨rfl, queryBinarySIMD_fallback FetchOutcome.fetchThrew [⟨"a", [3], none⟩] [0] 5 rfl⟩

/-- Claim C5: queryBinary fails with the LengthMismatch error whenever the
probe's word count differs from the word count of some stored vector; the
returned error records the probe's word count against a differing stored word
count, so vectors of differing bit length are never silently padded or
truncated before a distance is computed. -/
theorem queryBinary_lengthMismatch {M : Type} (db : List (EntityRecord M))
    (q : List Nat) (k : Nat) (h : ∃ rec ∈ db, rec.vector.length ≠ q.length) :
    ∃ l, queryBinary db q k = Except.error (DbError.lengthMismatch q.length l) ∧
      l ≠ q.length := by
  rcases queryResults_error h with ⟨l, hl, hlne⟩
  exact ⟨l, by rw [queryBinary, hl], hlne⟩

theorem queryBinary_lengthMismatch_witness :
    (∃ rec ∈ ([⟨"a", [3, 5], none⟩] : List (EntityRecord Unit)),
      rec.vector.length ≠ List.length [(0 : Nat)]) ∧
    ∃ l, queryBinary ([⟨"a", [3, 5], none⟩] : List (EntityRecord Unit)) [0] 5 =
        Except.error (DbError.lengthMismatch (List.length [(0 : Nat)]) l) ∧
      l ≠ List.length [(0 : Nat)] :=
  ⟨by decide, queryBinary_lengthMismatch [⟨"a", [3, 5], none⟩] [0] 5 (by decide)⟩

/-- Claim C7 counterexample: binarizeEmbedding called on the empty value list
returns the normal result (the empty word vector); it does not fail with an
InvalidInput error — the source has no emptiness check and its loop simply
never runs. -/
theorem binarizeEmbedding_empty_counterexample : binarizeEmbedding [] 0 = [] := rfl

/-- Claim C7 (amended): binarize called with an empty values sequence does not
fail; it returns the empty binary vector (ceil(0/64) = 0 words) for every
threshold. -/
theorem binarizeEmbedding_empty (t : ℚ) : binarizeEmbedding [] t = [] := rfl

/-- Claim C9: the attendance next-action computation of the clockin route is a
pure function of the last known status with nextAction(absent) = CLOCK_IN,
nextAction(CLOCK_IN) = CLOCK_OUT and nextAction(CLOCK_OUT) = CLOCK_IN. -/
theorem nextAction_spec :
    nextAction none = AttendanceStatus.CLOCK_IN ∧
    nextAction (some AttendanceStatus.CLOCK_IN) = AttendanceStatus.CLOCK_OUT ∧
    nextAction (some AttendanceStatus.CLOCK_OUT) = AttendanceStatus.CLOCK_IN :=
  ⟨rfl, rfl, rfl⟩

/-- Claim C1: for every store state and every probe whose word count matches
every stored vector, queryBinary(probe, topK) succeeds with at most topK
results, every result is a stored record carrying as distance the population
count of probe XOR the record's vector (wordwise xor, set bits counted per word
and summed), and the result sequence is sorted by non-decreasing distance. -/
theorem queryBinary_topK_sorted {M : Type} (db : List (EntityRecord M)) (q : List Nat)
    (k : Nat) (h : ∀ rec ∈ db, rec.vector.length = q.length) :
    ∃ rs, queryBinary db q k = Except.ok rs ∧ rs.length ≤ k ∧
      (∀ r ∈ rs, r.toEntityRecord ∈ db ∧ r.distance = specHamming q r.vector) ∧
      List.Sorted (fun a b : QueryResult M => a.distance ≤ b.distance) rs := by
  simp only [queryBinary, queryResults_ok h]
  refine ⟨_, rfl, ?_, ?_, ?_⟩
  · exact List.length_take_le k _
  · intro r hr
    have h1 : r ∈ (db.map (fun rec =>
        (⟨rec, specHamming q rec.vector⟩ : QueryResult M))).mergeSort distLe :=
      (List.take_sublist _ _).subset hr
    rcases List.mem_map.mp (List.mem_mergeSort.mp h1) with ⟨rec, hrec, rfl⟩
    exact ⟨hrec, rfl⟩
  · have hp := List.sorted_mergeSort distLe_trans distLe_total
      (db.map (fun rec => (⟨rec, specHamming q rec.vector⟩ : QueryResult M)))
    have hp2 : List.Pairwise (fun a b : QueryResult M => a.distance ≤ b.distance)
        ((db.map (fun rec => (⟨rec, specHamming q rec.vector⟩ : QueryResult M))).mergeSort
          distLe) := by
      refine hp.imp ?_
      intro a b hab
      simpa [distLe] using hab
    exact hp2.sublist (List.take_sublist _ _)

theorem queryBinary_topK_sorted_witness :
    (∀ rec ∈ ([⟨"a", [3], none⟩, ⟨"b", [1], none⟩] : List (EntityRecord Unit)),
      rec.vector.length = List.length [(0 : Nat)]) ∧
    ∃ rs, queryBinary ([⟨"a", [3], none⟩, ⟨"b", [1], none⟩] : List (EntityRecord Unit))
        [0] 5 = Except.ok rs ∧ rs.length ≤ 5 ∧
      (∀ r ∈ rs, r.toEntityRecord ∈
          ([⟨"a", [3], none⟩, ⟨"b", [1], none⟩] : List (EntityRecord Unit)) ∧
        r.distance = specHamming [0] r.vector) ∧
      List.Sorted (fun a b : QueryResult Unit => a.distance ≤ b.distance) rs :=
  ⟨by decide, queryBinary_topK_sorted [⟨"a", [3], none⟩, ⟨"b", [1], none⟩] [0] 5 (by decide)⟩

/-- Claim C4 counterexample: two records at equal Hamming distance 0 from the
probe, inserted with ids "b" then "a", are returned in insertion order
["b", "a"] even though "a" < "b": the sort comparator uses only the distance,
so ties are not broken by ascending identity string and the output order does
depend on insertion order. -/
theorem queryBinary_tiebreak_counterexample :
    queryBinary ([⟨"b", [0], none⟩, ⟨"a", [0], none⟩] : List (EntityRecord Unit)) [0] 5 =
      Except.ok [⟨⟨"b", [0], none⟩, 0⟩, ⟨⟨"a", [0], none⟩, 0⟩] ∧
    ("a" : String) < "b" := by
  constructor
  · have h : ∀ rec ∈ ([⟨"b", [0], none⟩, ⟨"a", [0], none⟩] : List (EntityRecord Unit)),
        rec.vector.length = List.length [(0 : Nat)] := by decide
    have hres := queryResults_ok h
    have hd : specHamming [0] [0] = 0 := by
      simp [specHamming, Nat.xor_self, specPopc_zero]
    simp only [queryBinary, hres, List.map_cons, List.map_nil, hd]
    rw [List.mergeSort_of_sorted (by simp [distLe])]
    rfl
  · exact String.lt_iff_toList_lt.mpr (by decide)

theorem mergeSort_filter_eq_class {M : Type} (l : List (QueryResult M)) (d : Nat) :
    (l.mergeSort distLe).filter (fun r => decide (r.distance = d)) =
      l.filter (fun r => decide (r.distance = d)) := by
  have hpw : List.Pairwise (fun a b : QueryResult M => distLe a b = true)
      (l.filter (fun r => decide (r.distance = d))) := by
    refine List.pairwise_of_forall_mem_list ?_
    intro a ha b hb
    have hda : a.distance = d := by simpa using (List.mem_filter.mp ha).2
    have hdb : b.distance = d := by simpa using (List.mem_filter.mp hb).2
    simp [distLe, hda, hdb]
  have hsub : (l.filter (fun r => decide (r.distance = d))).Sublist (l.mergeSort distLe) :=
    List.sublist_mergeSort distLe_trans distLe_total hpw (List.filter_sublist l)
  have hsub2 : (l.filter (fun r => decide (r.distance = d))).Sublist
      ((l.mergeSort distLe).filter (fun r => decide (r.distance = d))) := by
    have := hsub.filter (fun r => decide (r.distance = d))
    simpa [List.filter_filter] using this
  have hlen : (l.filter (fun r => decide (r.distance = d))).length =
      ((l.mergeSort distLe).filter (fun r => decide (r.distance = d))).length :=
    (((l.mergeSort_perm distLe).filter (fun r => decide (r.distance = d))).length_eq).symm
  exact (hsub2.eq_of_length hlen).symm

/-- Claim C4 (amended): when two stored records are at equal Hamming distance
from the probe, queryBinary orders them by the store's insertion (iteration)
order — the sort is stable and its comparator uses only the distance — so the
output order is reproducible for a fixed insertion sequence but is not the
ascending-identity order: within each distance value d, the returned results
form a sublist of the store-order result sequence restricted to distance d. -/
theorem queryBinary_tiebreak_insertion {M : Type} (db : List (EntityRecord M))
    (q : List Nat) (k : Nat) (h : ∀ rec ∈ db, rec.vector.length = q.length) :
    ∃ rs, queryBinary db q k = Except.ok rs ∧
      ∀ d, (rs.filter (fun r => decide (r.distance = d))).Sublist
        ((db.map (fun rec => (⟨rec, specHamming q rec.vector⟩ : QueryResult M))).filter
          (fun r => decide (r.distance = d))) := by
  simp only [queryBinary, queryResults_ok h]
  refine ⟨_, rfl, fun d => ?_⟩
  have heq := mergeSort_filter_eq_class
    (db.map (fun rec => (⟨rec, specHamming q rec.vector⟩ : QueryResult M))) d
  rw [← heq]
  exact (List.take_sublist k _).filter _

theorem queryBinary_tiebreak_insertion_witness :
    (∀ rec ∈ ([⟨"b", [0], none⟩, ⟨"a", [0], none⟩] : List (EntityRecord Unit)),
      rec.vector.length = List.length [(0 : Nat)]) ∧
    ∃ rs, queryBinary ([⟨"b", [0], none⟩, ⟨"a", [0], none⟩] : List (EntityRecord Unit))
        [0] 5 = Except.ok rs ∧
      ∀ d, (rs.filter (fun r => decide (r.distance = d))).Sublist
        ((([⟨"b", [0], none⟩, ⟨"a", [0], none⟩] : List (EntityRecord Unit)).map
            (fun rec => (⟨rec, specHamming [0] rec.vector⟩ : QueryResult Unit))).filter
          (fun r => decide (r.distance = d))) :=
  ⟨by decide,
    queryBinary_tiebreak_insertion [⟨"b", [0], none⟩, ⟨"a", [0], none⟩] [0] 5 (by decide)⟩

theorem upsert_map_id {M : Type} (db : List (EntityRecord M)) (rec : EntityRecord M) :
    (upsert db rec).map (fun r => r.id) =
      if db.any (fun r => decide (r.id = rec.id)) then db.map (fun r => r.id)
      else db.map (fun r => r.id) ++ [rec.id] := by
  unfold upsert
  split
  · rw [List.map_map]
    refine List.map_congr_left ?_
    intro r _
    by_cases hr : r.id = rec.id <;> simp [Function.comp, hr]
  · simp

theorem upsert_nodup {M : Type} {db : List (EntityRecord M)} (rec : EntityRecord M)
    (h : (db.map (fun r => r.id)).Nodup) :
    ((upsert db rec).map (fun r => r.id)).Nodup := by
  by_cases hany : db.any (fun r => decide (r.id = rec.id)) = true
  · rw [upsert_map_id, if_pos hany]
    exact h
  · rw [upsert_map_id, if_neg hany]
    have hnot : rec.id ∉ db.map (fun r => r.id) := by
      intro hmem
      rcases List.mem_map.mp hmem with ⟨r, hr, hid⟩
      exact hany (List.any_eq_true.mpr ⟨r, hr, by simp [hid]⟩)
    simp [List.nodup_append, h, hnot]

theorem upsert_toFinset {M : Type} (db : List (EntityRecord M)) (rec : EntityRecord M) :
    ((upsert db rec).map (fun r => r.id)).toFinset =
      insert rec.id (db.map (fun r => r.id)).toFinset := by
  by_cases hany : db.any (fun r => decide (r.id = rec.id)) = true
  · rw [upsert_map_id, if_pos hany]
    have hmem : rec.id ∈ (db.map (fun r => r.id)).toFinset := by
      rcases List.any_eq_true.mp hany with ⟨r, hr, hid⟩
      simp at hid
      exact List.mem_toFinset.mpr (List.mem_map.mpr ⟨r, hr, hid⟩)
    exact (Finset.insert_eq_self.mpr hmem).symm
  · rw [upsert_map_id, if_neg hany, List.toFinset_append]
    ext x
    simp [or_comm]

theorem remove_map_id {M : Type} (db : List (EntityRecord M)) (id : String) :
    (remove db id).map (fun r => r.id) =
      (db.map (fun r => r.id)).filter (fun x => decide (x ≠ id)) := by
  induction db with
  | nil => rfl
  | cons r rest ih =>
    by_cases hr : r.id = id <;>
      simp [remove, List.filter_cons, hr] at ih ⊢ <;>
      simpa [remove] using ih

theorem remove_nodup {M : Type} {db : List (EntityRecord M)} (id : String)
    (h : (db.map (fun r => r.id)).Nodup) :
    ((remove db id).map (fun r => r.id)).Nodup := by
  rw [remove_map_id]
  exact h.filter _

theorem remove_toFinset {M : Type} (db : List (EntityRecord M)) (id : String) :
    ((remove db id).map (fun r => r.id)).toFinset =
      (db.map (fun r => r.id)).toFinset.erase id := by
  rw [remove_map_id, List.toFinset_filter]
  rw [← Finset.filter_ne' (db.map (fun r => r.id)).toFinset id]
  apply Finset.filter_congr
  intro x _
  simp

theorem runOps_inv {M : Type} (ops : List (DbOp M)) :
    ∀ db : List (EntityRecord M), (db.map (fun r => r.id)).Nodup →
      ((ops.foldl applyOp db).map (fun r => r.id)).Nodup ∧
        ((ops.foldl applyOp db).map (fun r => r.id)).toFinset =
          ops.foldl stepIds (db.map (fun r => r.id)).toFinset := by
  induction ops with
  | nil =>
    intro db h
    exact ⟨h, rfl⟩
  | cons op rest ih =>
    intro db h
    rw [List.foldl_cons, List.foldl_cons]
    cases op with
    | upsertOp rec =>
      simp only [applyOp, stepIds]
      have h2 := upsert_nodup rec h
      have h3 := ih (upsert db rec) h2
      refine ⟨h3.1, ?_⟩
      rw [h3.2, upsert_toFinset]
    | removeOp id =>
      simp only [applyOp, stepIds]
      have h2 := remove_nodup id h
      have h3 := ih (remove db id) h2
      refine ⟨h3.1, ?_⟩
      rw [h3.2, remove_toFinset]
    | clearOp =>
      simp only [applyOp, stepIds, clear]
      have h3 := ih ([] : List (EntityRecord M)) (by simp)
      refine ⟨h3.1, ?_⟩
      rw [h3.2]
      simp

theorem get_upsert_self {M : Type} (db : List (EntityRecord M)) (rec : EntityRecord M) :
    get (upsert db rec) rec.id = some rec := by
  induction db with
  | nil => simp [upsert, get]
  | cons r rest ih =>
    by_cases hr : r.id = rec.id
    · have hany : (r :: rest).any (fun x => decide (x.id = rec.id)) = true := by
        simp [List.any_cons, hr]
      rw [upsert, if_pos hany, List.map_cons, if_pos hr]
      simp [get]
    · by_cases hany : rest.any (fun x => decide (x.id = rec.id)) = true
      · have hany2 : (r :: rest).any (fun x => decide (x.id = rec.id)) = true := by
          simp [List.any_cons, hany]
        rw [upsert, if_pos hany2, List.map_cons, if_neg hr]
        have htail : rest.map (fun x => if x.id = rec.id then rec else x) = upsert rest rec := by
          rw [upsert, if_pos hany]
        rw [get, List.find?_cons_of_neg _ (by simp [hr]), htail]
        simpa [get] using ih
      · have hany2 : ¬ (r :: rest).any (fun x => decide (x.id = rec.id)) = true := by
          simp [List.any_cons, hr]
          simpa using hany
        rw [upsert, if_neg hany2, List.cons_append]
        have htail : rest ++ [rec] = upsert rest rec := by
          rw [upsert, if_neg hany]
        rw [get, List.find?_cons_of_neg _ (by simp [hr]), htail]
        simpa [get] using ih

theorem upsert_count_one {M : Type} {db : List (EntityRecord M)}
    (h : (db.map (fun r => r.id)).Nodup) (rec : EntityRecord M) :
    ((upsert db rec).map (fun r => r.id)).count rec.id = 1 := by
  have hnodup := upsert_nodup rec h
  have hmem : rec.id ∈ (upsert db rec).map (fun r => r.id) := by
    have hmem2 : rec.id ∈ ((upsert db rec).map (fun r => r.id)).toFinset := by
      rw [upsert_toFinset]
      exact Finset.mem_insert_self _ _
    exact List.mem_toFinset.mp hmem2
  exact List.count_eq_one_of_mem hnodup hmem

/-- Claim C3: after any finite sequence of upsert, remove and clear operations,
all() holds exactly one record per id in the set of ids passed to upsert minus
those subsequently removed or erased by clear (the id list is duplicate-free
and its id set equals the folded bookkeeping set); moreover upsert(id, v1)
followed by upsert(id, v2) leaves get(id) returning the second record (so its
vector is v2) and exactly one record for that id. -/
theorem entityDb_lifecycle {M : Type} (ops : List (DbOp M)) :
    ((all (runOps ops)).map (fun r => r.id)).Nodup ∧
    ((all (runOps ops)).map (fun r => r.id)).toFinset = specIds ops ∧
    ∀ (id : String) (v1 v2 : List Nat) (m1 m2 : Option M),
      get (upsert (upsert (runOps ops) ⟨id, v1, m1⟩) ⟨id, v2, m2⟩) id = some ⟨id, v2, m2⟩ ∧
      ((upsert (upsert (runOps ops) ⟨id, v1, m1⟩) ⟨id, v2, m2⟩).map
        (fun r => r.id)).count id = 1 := by
  have hinv := runOps_inv ops [] (by simp)
  refine ⟨hinv.1, ?_, ?_⟩
  · simpa [runOps, specIds, all] using hinv.2
  · intro id v1 v2 m1 m2
    have h1 : ((upsert (runOps ops) (⟨id, v1, m1⟩ : EntityRecord M)).map
        (fun r => r.id)).Nodup := upsert_nodup _ hinv.1
    exact ⟨get_upsert_self (upsert (runOps ops) ⟨id, v1, m1⟩) ⟨id, v2, m2⟩,
      upsert_count_one h1 ⟨id, v2, m2⟩⟩

/-- Claim C8: when no best candidate exists, the match decision yields no
match: findBestFaceMatch returns null on the empty candidate list for every
probe and every threshold, and the clockin route's decision on an absent best
match reports matched = false. -/
theorem findBestFaceMatch_empty (q : List ℝ) (t : ℝ) :
    findBestFaceMatch q [] t = Except.ok none ∧ clockinMatched none = false := by
  constructor
  · simp [findBestFaceMatch]
  · rfl

theorem findBestLoop_nonpos (q : List ℝ) (t : ℝ) :
    ∀ cs : List FaceCandidate,
      (∀ c ∈ cs, ∃ s, cosineSimilarity q c.embedding = Except.ok s ∧ s ≤ 0) →
      findBestLoop q t cs none 0 = Except.ok none := by
  intro cs
  induction cs with
  | nil => intro _; rfl
  | cons c rest ih =>
    intro h
    rcases h c (by simp) with ⟨s, hs, hsle⟩
    simp only [findBestLoop, hs]
    rw [if_neg (not_lt.mpr hsle)]
    exact ih (fun c2 hc2 => h c2 (by simp [hc2]))

/-- Claim C10: findBestFaceMatch returns null not only on the empty candidate
list but on every non-empty candidate list in which no candidate has cosine
similarity to the probe strictly greater than 0: the best-so-far similarity
starts at 0 and is updated only on strict improvement, so a caller can observe
no best match even though candidates exist. -/
theorem findBestFaceMatch_nonpos (q : List ℝ) (cands : List FaceCandidate) (t : ℝ)
    (hne : cands ≠ [])
    (h : ∀ c ∈ cands, ∃ s, cosineSimilarity q c.embedding = Except.ok s ∧ s ≤ 0) :
    findBestFaceMatch q cands t = Except.ok none := by
  rw [findBestFaceMatch, if_neg (by simp [List.length_eq_zero, hne])]
  exact findBestLoop_nonpos q t cands h

theorem findBestFaceMatch_nonpos_witness :
    (([⟨"a", [0, 1], none⟩] : List FaceCandidate) ≠ []) ∧
    (∀ c ∈ ([⟨"a", [0, 1], none⟩] : List FaceCandidate),
      ∃ s, cosineSimilarity [1, 0] c.embedding = Except.ok s ∧ s ≤ 0) ∧
    findBestFaceMatch [1, 0] [⟨"a", [0, 1], none⟩] (3 / 5) = Except.ok none := by
  have hcos : cosineSimilarity [(1 : ℝ), 0] [(0 : ℝ), 1] = Except.ok 0 := by
    norm_num [cosineSimilarity, Real.sqrt_one]
  refine ⟨by simp, ?_, ?_⟩
  · intro c hc
    simp only [List.mem_singleton] at hc
    subst hc
    exact ⟨0, hcos, le_refl 0⟩
  · exact findBestFaceMatch_nonpos [1, 0] [⟨"a", [0, 1], none⟩] (3 / 5) (by simp)
      (fun c hc => by
        simp only [List.mem_singleton] at hc
        subst hc
        exact ⟨0, hcos, le_refl 0⟩)

theorem getD_drop {α : Type} (l : List α) (a j : Nat) (d : α) :
    (l.drop a).getD j d = l.getD (a + j) d := by
  simp [List.getD_eq_getElem?_getD, List.getElem?_drop]

theorem getD_take {α : Type} (l : List α) (n j : Nat) (d : α) (h : j < n) :
    (l.take n).getD j d = l.getD j d := by
  simp [List.getD_eq_getElem?_getD, List.getElem?_take, h]

theorem packFrom_testBit (t : ℚ) :
    ∀ (l : List ℚ) (b j : Nat),
      (packFrom t l b).testBit j =
        (decide (b ≤ j) && decide (j < b + l.length) && decide (l.getD (j - b) 0 > t)) := by
  intro l
  induction l with
  | nil =>
    intro b j
    rcases Nat.lt_or_ge j b with hlt | hge
    · simp [packFrom, Nat.zero_testBit, Nat.not_le.mpr hlt]
    · simp [packFrom, Nat.zero_testBit, Nat.not_lt.mpr hge]
  | cons x xs ih =>
    intro b j
    rw [packFrom, Nat.testBit_or, ih (b + 1) j]
    by_cases hjb : j = b
    · subst hjb
      have hble : ¬ (j + 1 ≤ j) := by omega
      have hlt : j < j + (x :: xs).length := by simp [List.length_cons]
      by_cases hx : x > t <;>
        simp [hx, Nat.one_shiftLeft, Nat.testBit_two_pow, Nat.zero_testBit, hble, hlt,
          Nat.sub_self, List.getD_cons_zero]
    · rcases Nat.lt_or_ge j b with hlt | hge
      · have h1 : ¬ (b ≤ j) := by omega
        have h2 : ¬ (b + 1 ≤ j) := by omega
        have h3 : b ≠ j := by omega
        by_cases hx : x > t <;>
          simp [hx, Nat.one_shiftLeft, Nat.testBit_two_pow, Nat.zero_testBit, h1, h2, h3]
      · have h1 : b ≤ j := by omega
        have h2 : b + 1 ≤ j := by omega
        have h3 : b ≠ j := by omega
        have hsub : j - b = (j - (b + 1)) + 1 := by omega
        have harith : b + 1 + xs.length = b + (x :: xs).length := by
          simp [List.length_cons]
          omega
        by_cases hx : x > t <;>
          simp [hx, Nat.one_shiftLeft, Nat.testBit_two_pow, Nat.zero_testBit, h1, h2, h3,
            hsub, harith, List.getD_cons_succ]

theorem packFrom_lt (t : ℚ) :
    ∀ (l : List ℚ) (b : Nat), packFrom t l b < 2 ^ (b + l.length) := by
  intro l
  induction l with
  | nil =>
    intro b
    simp only [packFrom, List.length_nil, Nat.add_zero]
    exact pow_pos (by norm_num) b
  | cons x xs ih =>
    intro b
    rw [packFrom]
    apply Nat.or_lt_two_pow
    · by_cases hx : x > t <;> simp [hx, Nat.one_shiftLeft]
      exact Nat.pow_lt_pow_right Nat.one_lt_two (by omega)
    · have hrec := ih (b + 1)
      have harith : b + 1 + xs.length = b + (x :: xs).length := by
        simp [List.length_cons]
        omega
      rw [harith] at hrec
      exact hrec

theorem binarizeGo_small (t : ℚ) :
    ∀ (l : List ℚ) (b c : Nat), l ≠ [] → l.length + b ≤ 64 →
      binarizeGo t l b c = [c ||| packFrom t l b] := by
  intro l
  induction l with
  | nil =>
    intro b c h _
    exact absurd rfl h
  | cons x xs ih =>
    intro b c _ hlen
    cases xs with
    | nil =>
      by_cases hx : x > t <;> simp [binarizeGo, packFrom, hx, Nat.or_zero]
    | cons y rest =>
      have hb : ¬ (b + 1 = 64) := by
        simp only [List.length_cons] at hlen
        omega
      rw [binarizeGo, if_neg hb,
        ih (b + 1) (if x > t then c ||| 1 <<< b else c) (by simp)
          (by simp only [List.length_cons] at hlen ⊢; omega)]
      by_cases hx : x > t <;> simp [packFrom, hx, Nat.or_assoc, Nat.zero_or]

theorem binarizeGo_step (t : ℚ) :
    ∀ (l : List ℚ) (b c : Nat), 64 < l.length + b → b < 64 →
      binarizeGo t l b c =
        (c ||| packFrom t (l.take (64 - b)) b) :: binarizeGo t (l.drop (64 - b)) 0 0 := by
  intro l
  induction l with
  | nil =>
    intro b c h hb
    simp only [List.length_nil, Nat.zero_add] at h
    omega
  | cons x xs ih =>
    intro b c h hb
    cases xs with
    | nil =>
      simp only [List.length_cons, List.length_nil] at h
      omega
    | cons y rest =>
      by_cases hbit : b + 1 = 64
      · have hb63 : b = 63 := by omega
        subst hb63
        rw [binarizeGo, if_pos hbit]
        have ht : (64 : Nat) - 63 = 1 := by norm_num
        rw [ht]
        simp only [List.take_succ_cons, List.take_zero, List.drop_succ_cons, List.drop_zero]
        by_cases hx : x > t <;> simp [packFrom, hx, Nat.or_zero]
      · rw [binarizeGo, if_neg hbit,
          ih (b + 1) (if x > t then c ||| 1 <<< b else c)
            (by simp only [List.length_cons] at h ⊢; omega) (by omega)]
        have h64 : 64 - b = (64 - (b + 1)) + 1 := by omega
        rw [h64, List.take_succ_cons, List.drop_succ_cons]
        by_cases hx : x > t <;> simp [packFrom, hx, Nat.or_assoc, Nat.zero_or]

/- Word-chunk view of the binarizer output: one packed word per 64 values. -/

def specWords (t : ℚ) (l : List ℚ) : List Nat :=
  if h : l = [] then []
  else packFrom t (l.take 64) 0 :: specWords t (l.drop 64)
termination_by l.length
decreasing_by
  have hl : l.length ≠ 0 := fun hl0 => h (List.length_eq_zero.mp hl0)
  simp [List.length_drop]
  omega

theorem specWords_nil (t : ℚ) : specWords t [] = [] := by
  rw [specWords]
  simp

theorem specWords_cons (t : ℚ) {l : List ℚ} (h : l ≠ []) :
    specWords t l = packFrom t (l.take 64) 0 :: specWords t (l.drop 64) := by
  rw [specWords]
  simp [h]

theorem binarizeGo_eq_specWords_aux (t : ℚ) :
    ∀ (n : Nat) (l : List ℚ), l.length ≤ n → binarizeGo t l 0 0 = specWords t l := by
  intro n
  induction n with
  | zero =>
    intro l hl
    have h0 : l = [] := List.length_eq_zero.mp (by omega)
    subst h0
    rw [specWords_nil]
    rfl
  | succ n ih =>
    intro l hl
    by_cases hne : l = []
    · subst hne
      rw [specWords_nil]
      rfl
    · by_cases hlen : l.length ≤ 64
      · rw [binarizeGo_small t l 0 0 hne (by omega), specWords_cons t hne,
          List.take_of_length_le hlen, List.drop_eq_nil_of_le hlen, specWords_nil]
        simp [Nat.zero_or]
      · rw [binarizeGo_step t l 0 0 (by omega) (by norm_num), specWords_cons t hne]
        have hdrop : (l.drop 64).length ≤ n := by
          simp [List.length_drop]
          omega
        simp only [Nat.sub_zero, Nat.zero_or]
        rw [ih (l.drop 64) hdrop]

theorem binarizeEmbedding_eq_specWords (values : List ℚ) (t : ℚ) :
    binarizeEmbedding values t = specWords t values :=
  binarizeGo_eq_specWords_aux t values.length values le_rfl

theorem specWords_length (t : ℚ) :
    ∀ (n : Nat) (l : List ℚ), l.length ≤ n → l ≠ [] →
      (specWords t l).length = (l.length + 63) / 64 := by
  intro n
  induction n with
  | zero =>
    intro l h hne
    exact absurd (List.length_eq_zero.mp (by omega)) hne
  | succ n ih =>
    intro l h hne
    rw [specWords_cons t hne]
    have hpos : 1 ≤ l.length := List.length_pos.mpr hne
    by_cases hlen : l.length ≤ 64
    · rw [List.drop_eq_nil_of_le hlen, specWords_nil]
      simp only [List.length_cons, List.length_nil]
      omega
    · have hne2 : l.drop 64 ≠ [] := by
        intro hd
        have hd2 := congrArg List.length hd
        simp [List.length_drop] at hd2
        omega
      rw [List.length_cons, ih (l.drop 64) (by simp [List.length_drop]; omega) hne2]
      simp only [List.length_drop]
      omega

theorem specWords_lt (t : ℚ) :
    ∀ (n : Nat) (l : List ℚ), l.length ≤ n → ∀ w ∈ specWords t l, w < 2 ^ 64 := by
  intro n
  induction n with
  | zero =>
    intro l h w hw
    have h0 : l = [] := List.length_eq_zero.mp (by omega)
    subst h0
    rw [specWords_nil] at hw
    simp at hw
  | succ n ih =>
    intro l h w hw
    by_cases hne : l = []
    · subst hne
      rw [specWords_nil] at hw
      simp at hw
    · rw [specWords_cons t hne] at hw
      rcases List.mem_cons.mp hw with rfl | hw2
      · have hp := packFrom_lt t (l.take 64) 0
        have hle : (l.take 64).length ≤ 64 := List.length_take_le 64 l
        exact lt_of_lt_of_le hp (Nat.pow_le_pow_right (by norm_num) (by omega))
      · exact ih (l.drop 64) (by simp [List.length_drop]; omega) w hw2

theorem specWords_testBit (t : ℚ) :
    ∀ (n : Nat) (l : List ℚ), l.length ≤ n → ∀ i, i < l.length →
      ((specWords t l).getD (i / 64) 0).testBit (i % 64) = decide (l.getD i 0 > t) := by
  intro n
  induction n with
  | zero =>
    intro l h i hi
    omega
  | succ n ih =>
    intro l h i hi
    have hne : l ≠ [] := by
      intro he
      subst he
      simp at hi
    rw [specWords_cons t hne]
    by_cases hi64 : i < 64
    · have hdiv : i / 64 = 0 := by omega
      have hmod : i % 64 = i := by omega
      rw [hdiv, hmod, List.getD_cons_zero, packFrom_testBit]
      have hlen : i < 0 + (l.take 64).length := by
        simp [List.length_take]
        omega
      have hgd : (l.take 64).getD i 0 = l.getD i 0 := getD_take l 64 i 0 hi64
      rw [Nat.sub_zero, hgd]
      simp [hlen, hi64, hi]
    · have hdiv : i / 64 = (i - 64) / 64 + 1 := by omega
      rw [hdiv, List.getD_cons_succ]
      have hrec := ih (l.drop 64) (by simp [List.length_drop]; omega) (i - 64)
        (by simp [List.length_drop]; omega)
      have hmod : (i - 64) % 64 = i % 64 := by omega
      have hgd : (l.drop 64).getD (i - 64) 0 = l.getD i 0 := by
        rw [getD_drop]
        congr 1
        omega
      rw [← hmod, ← hgd]
      exact hrec

/-- Claim C6: for every non-empty value sequence and every threshold,
binarizeEmbedding returns ceil(len/64) words, each a 64-bit word (value below
2^64), in which bit i — stored little-endian as bit i mod 64 of word i div 64 —
is set iff values[i] > threshold; and the function is deterministic: two calls
with identical input and threshold produce bit-identical output. -/
theorem binarizeEmbedding_spec (values : List ℚ) (t : ℚ) (h : values ≠ []) :
    (binarizeEmbedding values t).length = (values.length + 63) / 64 ∧
    (∀ w ∈ binarizeEmbedding values t, w < 2 ^ 64) ∧
    (∀ i, i < values.length →
      ((binarizeEmbedding values t).getD (i / 64) 0).testBit (i % 64) =
        decide (values.getD i 0 > t)) ∧
    (∀ values2 t2, values2 = values → t2 = t →
      binarizeEmbedding values2 t2 = binarizeEmbedding values t) := by
  have he : binarizeEmbedding values t = specWords t values :=
    binarizeEmbedding_eq_specWords values t
  refine ⟨?_, ?_, ?_, ?_⟩
  · rw [he]
    exact specWords_length t values.length values le_rfl h
  · rw [he]
    exact specWords_lt t values.length values le_rfl
  · rw [he]
    exact specWords_testBit t values.length values le_rfl
  · intro values2 t2 hv ht2
    rw [hv, ht2]

theorem binarizeEmbedding_spec_witness :
    (([1, -1, 2] : List ℚ) ≠ []) ∧
    ((binarizeEmbedding [1, -1, 2] 0).length = (List.length [(1 : ℚ), -1, 2] + 63) / 64 ∧
     (∀ w ∈ binarizeEmbedding [1, -1, 2] 0, w < 2 ^ 64) ∧
     (∀ i, i < List.length [(1 : ℚ), -1, 2] →
       ((binarizeEmbedding [1, -1, 2] 0).getD (i / 64) 0).testBit (i % 64) =
         decide (List.getD [(1 : ℚ), -1, 2] i 0 > 0)) ∧
     (∀ values2 t2, values2 = [(1 : ℚ), -1, 2] → t2 = 0 →
       binarizeEmbedding values2 t2 = binarizeEmbedding [1, -1, 2] 0)) :=
  ⟨by simp, binarizeEmbedding_spec [1, -1, 2] 0 (by simp)⟩

end FaceLock
